import Mathlib

/-
Shallow embedding of the sparse_ecs crate core.

Sources embedded here:
- src/component.rs : unified component storage Storage with two index
  variants (sparse vector index, hashmap index), operations set,
  add_entity, remove_entity, get, has, len.
- src/world.rs : the World registry (type keyed store map, entity
  allocator, multi store mutable fetch get_two_mut .. get_six_mut and
  FetchMut::fetch).
- src/tags.rs : the tag index (add_tag, remove_tag, remove_all_tags).

Conventions of the embedding:
- Rust usize is Nat; an Entity wraps a usize, so entities are plain Nat.
- A Rust operation that can panic (index out of bounds, failed assert,
  despawn of a dead entity) is embedded as an Option returning function,
  with none standing for the panic.
- std HashMap is embedded as an association list with no duplicate keys;
  insert overwrites the first matching key, remove deletes it.
- std HashSet is embedded as a duplicate free list; the expression
  set.iter().next() used by World::spawn is embedded as the list head,
  which is exact whenever the set has at most one element.
-/

namespace SparseEcs

/-- Lookup in an association list: the value of the first pair whose key
matches, as HashMap::get does. -/
def assocGet {α : Type} : List (Nat × α) → Nat → Option α
  | [], _ => none
  | (k, v) :: rest, key => if k = key then some v else assocGet rest key

/-- Insert into an association list, overwriting the first pair with the
same key if one exists, as HashMap::insert does. -/
def assocInsert {α : Type} : List (Nat × α) → Nat → α → List (Nat × α)
  | [], key, v => [(key, v)]
  | (k, w) :: rest, key, v =>
      if k = key then (key, v) :: rest else (k, w) :: assocInsert rest key v

/-- Remove from an association list, returning the removed value (if any)
together with the remaining list, as HashMap::remove does. -/
def assocRemove {α : Type} : List (Nat × α) → Nat → Option α × List (Nat × α)
  | [], _ => (none, [])
  | (k, v) :: rest, key =>
      if k = key then (some v, rest)
      else
        let r := assocRemove rest key
        (r.1, (k, v) :: r.2)

/-- Vec::swap_remove on a list: returns the element at position i and the
list where the last element has been moved into position i and the length
shrank by one; none when i is out of bounds (the Rust call panics). -/
def swapRemoveList {α : Type} (l : List α) (i : Nat) : Option (α × List α) :=
  match l[i]?, l.getLast? with
  | some x, some lastv => some (x, (l.set i lastv).dropLast)
  | _, _ => none

/-- SparseIndex from src/component.rs: the entity to dense row mapping,
either a fixed size vector of optional rows or a hashmap. -/
inductive SparseIndex where
  | vec : List (Option Nat) → SparseIndex
  | map : List (Nat × Nat) → SparseIndex
deriving DecidableEq

/-- Index lookup as the Rust code performs it.  For the vector variant the
Rust code writes sparse[entity.0], which panics when the entity exceeds the
configured capacity: the outer Option is that panic.  The hashmap variant
never panics. -/
def SparseIndex.lookup : SparseIndex → Nat → Option (Option Nat)
  | .vec sparse, e => sparse[e]?
  | .map m, e => some (assocGet m e)

/-- Storage from src/component.rs: dense component values, the parallel
list of owning entities, the sparse index, and the append only added and
removed logs. -/
structure Storage (T : Type) where
  added : List Nat
  removed : List Nat
  index : SparseIndex
  dense : List T
  entities : List Nat
deriving DecidableEq

namespace Storage

variable {T : Type}

/-- Storage::new_sparse. -/
def new_sparse (entity_count : Nat) : Storage T :=
  ⟨[], [], .vec (List.replicate entity_count none), [], []⟩

/-- Storage::new_hashmap. -/
def new_hashmap : Storage T :=
  ⟨[], [], .map [], [], []⟩

/-- Storage::add_entity.  Panics (none) when the sparse vector access is
out of bounds or when the assertion that the entity is absent fails;
otherwise appends to dense, entities and added and records the index. -/
def add_entity (s : Storage T) (data : T) (e : Nat) : Option (Storage T) :=
  let idx := s.dense.length
  match s.index with
  | .vec sparse =>
      match sparse[e]? with
      | none => none
      | some (some _) => none
      | some none =>
          some { s with
            index := .vec (sparse.set e (some idx)),
            dense := s.dense ++ [data],
            entities := s.entities ++ [e],
            added := s.added ++ [e] }
  | .map m =>
      if (assocGet m e).isSome then none
      else
        some { s with
          index := .map (assocInsert m e idx),
          dense := s.dense ++ [data],
          entities := s.entities ++ [e],
          added := s.added ++ [e] }

/-- Storage::set.  When the entity has a row, overwrites the dense slot in
place (the write self.dense[idx] = data panics when idx is out of bounds);
when absent, calls add_entity. -/
def set (s : Storage T) (data : T) (e : Nat) : Option (Storage T) :=
  match s.index with
  | .vec sparse =>
      match sparse[e]? with
      | none => none
      | some (some idx) =>
          if idx < s.dense.length then some { s with dense := s.dense.set idx data }
          else none
      | some none => s.add_entity data e
  | .map m =>
      match assocGet m e with
      | some idx =>
          if idx < s.dense.length then some { s with dense := s.dense.set idx data }
          else none
      | none => s.add_entity data e

/-- Shared tail of Storage::remove_entity, entered once the index entry of
the removed entity has been cleared and its row idx captured: swap_remove
on entities and dense, then when the removed row was not the last one,
re-point the index entry of the entity whose row was moved. -/
def removeAt (s : Storage T) (e : Nat) (idx : Nat) : Option (Option T × Storage T) :=
  let last := s.dense.length - 1
  match swapRemoveList s.entities idx, swapRemoveList s.dense idx with
  | some (_, ents), some (v, dens) =>
      if idx = last then
        some (some v, { s with dense := dens, entities := ents, removed := s.removed ++ [e] })
      else
        match ents[idx]? with
        | none => none
        | some moved =>
            match s.index with
            | .vec sparse =>
                if moved < sparse.length then
                  some (some v, { s with
                    index := .vec (sparse.set moved (some idx)),
                    dense := dens, entities := ents,
                    removed := s.removed ++ [e] })
                else none
            | .map m =>
                some (some v, { s with
                  index := .map (assocInsert m moved idx),
                  dense := dens, entities := ents,
                  removed := s.removed ++ [e] })
  | _, _ => none

/-- Storage::remove_entity.  Returns none on a panic; some (none, s) when
the entity is absent (the function returns None leaving the store as is);
some (some v, s) when the value v was removed. -/
def remove_entity (s : Storage T) (e : Nat) : Option (Option T × Storage T) :=
  match s.index with
  | .vec sparse =>
      match sparse[e]? with
      | none => none
      | some none => some (none, s)
      | some (some idx) =>
          removeAt { s with index := .vec (sparse.set e none) } e idx
  | .map m =>
      let r := assocRemove m e
      match r.1 with
      | none => some (none, { s with index := .map r.2 })
      | some idx => removeAt { s with index := .map r.2 } e idx

/-- Storage::get.  The outer Option is a panic of the sparse vector access
or of the dense access; the inner Option is the documented result. -/
def get (s : Storage T) (e : Nat) : Option (Option T) :=
  match s.index.lookup e with
  | none => none
  | some none => some none
  | some (some idx) =>
      match s.dense[idx]? with
      | none => none
      | some v => some (some v)

/-- Storage::has.  Panics (none) only on the out of bounds sparse vector
access. -/
def has (s : Storage T) (e : Nat) : Option Bool :=
  match s.index.lookup e with
  | none => none
  | some o => some o.isSome

/-- Storage::len. -/
def len (s : Storage T) : Nat :=
  s.dense.length

/-- Checker for one half of the sparse set invariant: the entity stored at
row i of the entities list has index entry i.  The first argument of the
recursion is the row of the list head. -/
def entsOk (ix : SparseIndex) : Nat → List Nat → Bool
  | _, [] => true
  | i, e :: rest => decide (ix.lookup e = some (some i)) && entsOk ix (i + 1) rest

/-- Checker for the other half of the invariant, vector variant: every
occupied slot of the sparse vector points at a row holding that entity.
The first argument is the entity id of the list head slot. -/
def sparseOk (ents : List Nat) : Nat → List (Option Nat) → Bool
  | _, [] => true
  | e, none :: rest => sparseOk ents (e + 1) rest
  | e, some idx :: rest => decide (ents[idx]? = some e) && sparseOk ents (e + 1) rest

/-- Checker for the other half of the invariant, hashmap variant: keys are
pairwise distinct and every entry points at a row holding that entity. -/
def mapOk (ents : List Nat) : List (Nat × Nat) → Bool
  | [] => true
  | (k, v) :: rest =>
      decide (assocGet rest k = none) && decide (ents[v]? = some k) && mapOk ents rest

/-- Decidable well formedness of a store: the dense and entities lists
have equal length and the index and the entities list describe the same
entity to row bijection.  Every store reachable from new_sparse or
new_hashmap by the public operations satisfies it. -/
def wf (s : Storage T) : Bool :=
  decide (s.dense.length = s.entities.length) && entsOk s.index 0 s.entities &&
    (match s.index with
     | .vec sparse => sparseOk s.entities 0 sparse
     | .map m => mapOk s.entities m)

/-- Capacity guard: for the vector variant, the entity is within the
configured capacity (so the sparse vector access cannot panic); the
hashmap variant has no capacity. -/
def inCap (s : Storage T) (e : Nat) : Bool :=
  match s.index with
  | .vec sparse => decide (e < sparse.length)
  | .map _ => true

end Storage

/-- One mutating store operation, used to state invariants over arbitrary
operation sequences. -/
inductive Op (T : Type) where
  | addE (data : T) (e : Nat)
  | setE (data : T) (e : Nat)
  | removeE (e : Nat)

/-- Apply one operation; none when the operation panics. -/
def applyOp {T : Type} (s : Storage T) : Op T → Option (Storage T)
  | .addE d e => s.add_entity d e
  | .setE d e => s.set d e
  | .removeE e => (s.remove_entity e).map Prod.snd

/-- Run a sequence of operations, failing when any one of them fails. -/
def runOps {T : Type} (s : Storage T) : List (Op T) → Option (Storage T)
  | [] => some s
  | op :: rest => (applyOp s op).bind (fun s1 => runOps s1 rest)

/-- Insertion into a HashSet embedded as a duplicate free list. -/
def insertSet (e : Nat) (l : List Nat) : List Nat :=
  if e ∈ l then l else l ++ [e]

/-- Tag cleanup from src/tags.rs: EntityTags::remove_all_tags iterates all
tag keys and removes the entity from each tag set. -/
def remove_all_tags (e : Nat) (tags : List (String × List Nat)) : List (String × List Nat) :=
  tags.map (fun p => (p.1, p.2.filter (fun x => x ≠ e)))

/-- Which backing storage a registered component type uses, from
ComponentStorageKind in src/world.rs.  In the registry a store registered
as Sparse is a SparseSet and one registered as HashMap is a HashMapSet;
the downcast in the multi fetch macro succeeds only on the former. -/
inductive Backend where
  | sparse
  | hashmap
deriving DecidableEq

/-- One type erased entry of the World map (Box<dyn Any> in the source):
the backend it was registered with plus the store itself.  Component
payloads are represented by Nat; the fetch logic never inspects them. -/
structure BoxedStore where
  backend : Backend
  store : Storage Nat
deriving DecidableEq

/-- World from src/world.rs: the type keyed store map (type identifiers
are represented by Nat keys), the live and dead entity sets, the next
fresh id, the tag index and the configured capacity. -/
structure World where
  tags : List (String × List Nat)
  map : List (Nat × BoxedStore)
  entities : List Nat
  dead_entities : List Nat
  next_entity_id : Nat
  size : Nat
deriving DecidableEq

namespace World

/-- World::new. -/
def new (size : Nat) : World :=
  ⟨[], [], [], [], 0, size⟩

/-- World::spawn: reuse a dead id when one exists (iter().next() on the
free set, embedded as the list head), otherwise issue next_entity_id. -/
def spawn (w : World) : Nat × World :=
  match w.dead_entities with
  | dead_id :: rest =>
      (dead_id, { w with dead_entities := rest, entities := insertSet dead_id w.entities })
  | [] =>
      (w.next_entity_id,
        { w with
          entities := insertSet w.next_entity_id w.entities,
          next_entity_id := w.next_entity_id + 1 })

/-- World::despawn: panics (none) when the entity is not live; otherwise
moves it from the live set to the dead set and removes all its tags. -/
def despawn (w : World) (e : Nat) : Option World :=
  if e ∈ w.entities then
    some { w with
      entities := w.entities.filter (fun x => x ≠ e),
      dead_entities := insertSet e w.dead_entities,
      tags := remove_all_tags e w.tags }
  else none

/-- Backend construction used at registration time. -/
def mkStore (kind : Backend) (size : Nat) : Storage Nat :=
  match kind with
  | .sparse => Storage.new_sparse size
  | .hashmap => Storage.new_hashmap

/-- World::add: registers a sparse backed store for a fresh type key and
returns true; returns false leaving the world unchanged when the key is
already registered. -/
def add (w : World) (key : Nat) : Bool × World :=
  if (assocGet w.map key).isSome then (false, w)
  else (true, { w with map := assocInsert w.map key ⟨.sparse, Storage.new_sparse w.size⟩ })

/-- World::add_with_storage: like add but choosing the backend. -/
def add_with_storage (w : World) (key : Nat) (kind : Backend) : Bool × World :=
  if (assocGet w.map key).isSome then (false, w)
  else (true, { w with map := assocInsert w.map key ⟨kind, mkStore kind w.size⟩ })

/-- Downcast of a Box<dyn Any> slot to SparseSet<T>, as performed by the
impl_get_mut macro: succeeds exactly when the store was registered with
the sparse backend. -/
def downcastSparse (b : BoxedStore) : Option (Storage Nat) :=
  match b.backend with
  | .sparse => some b.store
  | .hashmap => none

/-- HashMap::get_disjoint_mut over the world map: panics (none) when the
keys overlap, otherwise yields one optional slot per key. -/
def get_disjoint_mut (w : World) (keys : List Nat) : Option (List (Option BoxedStore)) :=
  if keys.Nodup then some (keys.map (fun k => assocGet w.map k)) else none

/-- The body generated by impl_get_mut (get_two_mut .. get_six_mut),
uniformly over the list of requested type keys: one combined disjoint
lookup, then each slot independently downcast to the sparse store. -/
def get_k_mut (w : World) (keys : List Nat) : Option (List (Option (Storage Nat))) :=
  (get_disjoint_mut w keys).map (fun slots => slots.map (fun s => s.bind downcastSparse))

/-- All or nothing collection of the option tuple, as the expression
Some((a?, b?, ...)) does in every FetchMut impl. -/
def sequenceOpt {α : Type} : List (Option α) → Option (List α)
  | [] => some []
  | none :: _ => none
  | some x :: rest => (sequenceOpt rest).map (fun l => x :: l)

/-- FetchMut::fetch for the tuple arity given by keys.length (the source
defines one instance per arity from 2 to 6): calls the matching
get_k_mut and returns the tuple only when every slot is present. -/
def fetch_mut (w : World) (keys : List Nat) : Option (List (Storage Nat)) :=
  (get_k_mut w keys).bind sequenceOpt

end World

/- Helper lemmas about list indexing and association lists. -/

theorem getq_lt {α : Type} {l : List α} {i : Nat} {x : α} (h : l[i]? = some x) :
    i < l.length := by
  by_contra hc
  rw [List.getElem?_eq_none_iff.mpr (Nat.le_of_not_lt hc)] at h
  exact Option.noConfusion h

theorem getq_set_self {α : Type} {l : List α} {i : Nat} (a : α) (h : i < l.length) :
    (l.set i a)[i]? = some a := by
  rw [List.getElem?_set_self', List.getElem?_eq_getElem h]
  rfl

theorem getq_dropLast {α : Type} {l : List α} {i : Nat} (h : i + 1 < l.length) :
    l.dropLast[i]? = l[i]? := by
  rw [List.dropLast_eq_take, List.getElem?_take, if_pos (by omega)]

theorem assocRemove_fst {α : Type} (m : List (Nat × α)) (e : Nat) :
    (assocRemove m e).1 = assocGet m e := by
  induction m with
  | nil => rfl
  | cons p rest ih =>
      obtain ⟨k, v⟩ := p
      by_cases hk : k = e
      · simp [assocRemove, assocGet, hk]
      · simp [assocRemove, assocGet, hk, ih]

theorem assocGet_remove_ne {α : Type} (m : List (Nat × α)) {k e : Nat} (h : k ≠ e) :
    assocGet (assocRemove m e).2 k = assocGet m k := by
  induction m with
  | nil => rfl
  | cons p rest ih =>
      obtain ⟨k1, v⟩ := p
      by_cases hk : k1 = e
      · subst hk
        have hne : k1 ≠ k := fun hc => h hc.symm
        simp [assocRemove, assocGet, hne]
      · by_cases hk1 : k1 = k
        · simp [assocRemove, assocGet, hk, hk1, h]
        · simp [assocRemove, assocGet, hk, hk1, ih]

theorem assocRemove_of_get_none {α : Type} {m : List (Nat × α)} {e : Nat}
    (h : assocGet m e = none) : assocRemove m e = (none, m) := by
  induction m with
  | nil => rfl
  | cons p rest ih =>
      obtain ⟨k, v⟩ := p
      rw [assocGet] at h
      by_cases hk : k = e
      · rw [if_pos hk] at h
        exact Option.noConfusion h
      · rw [if_neg hk] at h
        simp [assocRemove, hk, ih h]

theorem assocGet_insert_self {α : Type} (m : List (Nat × α)) (k : Nat) (v : α) :
    assocGet (assocInsert m k v) k = some v := by
  induction m with
  | nil => simp [assocInsert, assocGet]
  | cons p rest ih =>
      obtain ⟨k1, v1⟩ := p
      by_cases hk : k1 = k
      · simp [assocInsert, assocGet, hk]
      · simp [assocInsert, assocGet, hk, ih]

theorem assocGet_insert_ne {α : Type} (m : List (Nat × α)) {q k : Nat} (v : α) (h : q ≠ k) :
    assocGet (assocInsert m k v) q = assocGet m q := by
  induction m with
  | nil =>
      have hne : k ≠ q := fun hc => h hc.symm
      simp [assocInsert, assocGet, hne]
  | cons p rest ih =>
      obtain ⟨k1, v1⟩ := p
      by_cases hk : k1 = k
      · subst hk
        have hne : k1 ≠ q := fun hc => h hc.symm
        simp [assocInsert, assocGet, hne]
      · by_cases hq : k1 = q
        · simp [assocInsert, assocGet, hk, hq, h]
        · simp [assocInsert, assocGet, hk, hq, ih]

/- Extraction lemmas for the well formedness checkers. -/

theorem entsOk_nth {ix : SparseIndex} {l : List Nat} {k j e : Nat}
    (h : Storage.entsOk ix k l = true) (hj : l[j]? = some e) :
    ix.lookup e = some (some (k + j)) := by
  induction l generalizing k j with
  | nil => exact Option.noConfusion hj
  | cons x rest ih =>
      rw [Storage.entsOk] at h
      simp only [Bool.and_eq_true, decide_eq_true_eq] at h
      cases j with
      | zero =>
          rw [List.getElem?_cons_zero] at hj
          cases hj
          simpa using h.1
      | succ j =>
          rw [List.getElem?_cons_succ] at hj
          have := ih h.2 hj
          have harr : k + (j + 1) = k + 1 + j := by omega
          rw [harr]
          exact this

theorem sparseOk_nth {ents : List Nat} {sp : List (Option Nat)} {k j idx : Nat}
    (h : Storage.sparseOk ents k sp = true) (hj : sp[j]? = some (some idx)) :
    ents[idx]? = some (k + j) := by
  induction sp generalizing k j with
  | nil => exact Option.noConfusion hj
  | cons o rest ih =>
      cases o with
      | none =>
          rw [Storage.sparseOk] at h
          cases j with
          | zero =>
              rw [List.getElem?_cons_zero] at hj
              exact Option.noConfusion (Option.some.inj hj)
          | succ j =>
              rw [List.getElem?_cons_succ] at hj
              have := ih h hj
              have harr : k + (j + 1) = k + 1 + j := by omega
              rw [harr]
              exact this
      | some i0 =>
          rw [Storage.sparseOk] at h
          simp only [Bool.and_eq_true, decide_eq_true_eq] at h
          cases j with
          | zero =>
              rw [List.getElem?_cons_zero] at hj
              cases Option.some.inj hj
              simpa using h.1
          | succ j =>
              rw [List.getElem?_cons_succ] at hj
              have := ih h.2 hj
              have harr : k + (j + 1) = k + 1 + j := by omega
              rw [harr]
              exact this

theorem mapOk_get {ents : List Nat} {m : List (Nat × Nat)} {k v : Nat}
    (h : Storage.mapOk ents m = true) (hk : assocGet m k = some v) :
    ents[v]? = some k := by
  induction m with
  | nil => exact Option.noConfusion hk
  | cons p rest ih =>
      obtain ⟨k1, v1⟩ := p
      rw [Storage.mapOk] at h
      simp only [Bool.and_eq_true, decide_eq_true_eq] at h
      rw [assocGet] at hk
      by_cases hkk : k1 = k
      · rw [if_pos hkk] at hk
        cases Option.some.inj hk
        exact hkk ▸ h.1.2
      · rw [if_neg hkk] at hk
        exact ih h.2 hk

theorem mapOk_remove_self {ents : List Nat} {m : List (Nat × Nat)}
    (h : Storage.mapOk ents m = true) (e : Nat) :
    assocGet (assocRemove m e).2 e = none := by
  induction m with
  | nil => rfl
  | cons p rest ih =>
      obtain ⟨k, v⟩ := p
      rw [Storage.mapOk] at h
      simp only [Bool.and_eq_true, decide_eq_true_eq] at h
      by_cases hk : k = e
      · subst hk
        simp [assocRemove, h.1.1]
      · simp [assocRemove, assocGet, hk, ih h.2]

/- Extraction lemmas for wf itself. -/

theorem wf_len {T : Type} {s : Storage T} (h : s.wf = true) :
    s.dense.length = s.entities.length := by
  rw [Storage.wf] at h
  simp only [Bool.and_eq_true, decide_eq_true_eq] at h
  exact h.1.1

theorem wf_ents_lookup {T : Type} {s : Storage T} (h : s.wf = true) {i e : Nat}
    (hi : s.entities[i]? = some e) : s.index.lookup e = some (some i) := by
  rw [Storage.wf] at h
  simp only [Bool.and_eq_true, decide_eq_true_eq] at h
  simpa using entsOk_nth h.1.2 hi

theorem wf_lookup_ents {T : Type} {s : Storage T} (h : s.wf = true) {e i : Nat}
    (hl : s.index.lookup e = some (some i)) : s.entities[i]? = some e := by
  rw [Storage.wf] at h
  simp only [Bool.and_eq_true, decide_eq_true_eq] at h
  cases hix : s.index with
  | vec sparse =>
      rw [hix] at h hl
      rw [SparseIndex.lookup] at hl
      simpa using sparseOk_nth h.2 hl
  | map m =>
      rw [hix] at h hl
      rw [SparseIndex.lookup] at hl
      exact mapOk_get h.2 (Option.some.inj hl)

theorem has_false_lookup {T : Type} {s : Storage T} {e : Nat} (h : s.has e = some false) :
    s.index.lookup e = some none := by
  rw [Storage.has] at h
  cases hlk : s.index.lookup e with
  | none => rw [hlk] at h; exact Option.noConfusion h
  | some o =>
      rw [hlk] at h
      cases o with
      | none => rfl
      | some i => simp at h

theorem has_true_lookup {T : Type} {s : Storage T} {e : Nat} (h : s.has e = some true) :
    ∃ i, s.index.lookup e = some (some i) := by
  rw [Storage.has] at h
  cases hlk : s.index.lookup e with
  | none => rw [hlk] at h; exact Option.noConfusion h
  | some o =>
      rw [hlk] at h
      cases o with
      | none => simp at h
      | some i => exact ⟨i, rfl⟩

/-- C10: for every store (either indexing variant) and entity that is
absent (and, for the vector variant, within capacity, which is what the
non panicking result of has encodes), remove_entity returns None and the
whole store, index and logs included, is exactly unchanged. -/
theorem c10_remove_absent_noop {T : Type} (s : Storage T) (e : Nat)
    (habs : s.has e = some false) :
    s.remove_entity e = some (none, s) := by
  have hlk := has_false_lookup habs
  obtain ⟨ad, rm, ix, dn, en⟩ := s
  cases ix with
  | vec sparse =>
      simp only [SparseIndex.lookup] at hlk
      simp [Storage.remove_entity, hlk]
  | map m =>
      simp only [SparseIndex.lookup] at hlk
      have hget : assocGet m e = none := Option.some.inj hlk
      simp [Storage.remove_entity, assocRemove_of_get_none hget]

/-- Witness for C10 at a concrete store. -/
theorem c10_witness :
    Storage.remove_entity (Storage.new_sparse 3 : Storage Nat) 1 =
      some (none, Storage.new_sparse 3) :=
  c10_remove_absent_noop _ 1 (by decide)

/-- C6: add_entity stops with a failed assertion (embedded as none) when
the entity already has a value, and its success branch is reached only
when the entity is absent. -/
theorem c6_add_asserts_absent {T : Type} (s : Storage T) (v : T) (e : Nat) :
    (s.has e = some true → s.add_entity v e = none) ∧
    (∀ s1, s.add_entity v e = some s1 → s.has e = some false) := by
  obtain ⟨ad, rm, ix, dn, en⟩ := s
  cases ix with
  | vec sparse =>
      constructor
      · intro h
        obtain ⟨i, hlk⟩ := has_true_lookup h
        simp only [SparseIndex.lookup] at hlk
        simp [Storage.add_entity, hlk]
      · intro s1 h
        cases hse : sparse[e]? with
        | none => simp [Storage.add_entity, hse] at h
        | some o =>
            cases o with
            | none => simp [Storage.has, SparseIndex.lookup, hse]
            | some i => simp [Storage.add_entity, hse] at h
  | map m =>
      constructor
      · intro h
        obtain ⟨i, hlk⟩ := has_true_lookup h
        simp only [SparseIndex.lookup] at hlk
        have hs : (assocGet m e).isSome = true := by
          rw [Option.some.inj hlk]; rfl
        simp [Storage.add_entity, hs]
      · intro s1 h
        cases hg : assocGet m e with
        | some i => simp [Storage.add_entity, hg] at h
        | none => simp [Storage.has, SparseIndex.lookup, hg]

/-- Witness for C6 at a concrete store already holding entity 0. -/
theorem c6_witness :
    Storage.add_entity (⟨[0], [], .vec [some 0], [10], [0]⟩ : Storage Nat) 5 0 = none :=
  (c6_add_asserts_absent ⟨[0], [], .vec [some 0], [10], [0]⟩ 5 0).1 (by decide)

/-- C5: set overwrites in place when the entity is present, leaving the
index, the entities list and the added and removed logs unchanged; when
the entity is absent, set is exactly add_entity (so the added log append
happens there and only there). -/
theorem c5_set_semantics {T : Type} (s : Storage T) (v : T) (e : Nat)
    (hwf : s.wf = true) :
    (s.has e = some true →
       ∃ s1, s.set v e = some s1 ∧ s1.index = s.index ∧ s1.entities = s.entities ∧
         s1.added = s.added ∧ s1.removed = s.removed ∧ s1.get e = some (some v)) ∧
    (s.has e = some false → s.set v e = s.add_entity v e) := by
  constructor
  · intro h
    obtain ⟨i, hlk⟩ := has_true_lookup h
    have hent := wf_lookup_ents hwf hlk
    have hlen : i < s.dense.length := by
      have h1 := getq_lt hent
      have h2 := wf_len hwf
      omega
    obtain ⟨ad, rm, ix, dn, en⟩ := s
    cases ix with
    | vec sparse =>
        simp only [SparseIndex.lookup] at hlk
        refine ⟨⟨ad, rm, .vec sparse, dn.set i v, en⟩, ?_, rfl, rfl, rfl, rfl, ?_⟩
        · simp [Storage.set, hlk, hlen]
        · simp [Storage.get, SparseIndex.lookup, hlk, getq_set_self v hlen]
    | map m =>
        simp only [SparseIndex.lookup] at hlk
        have hget : assocGet m e = some i := Option.some.inj hlk
        refine ⟨⟨ad, rm, .map m, dn.set i v, en⟩, ?_, rfl, rfl, rfl, rfl, ?_⟩
        · simp [Storage.set, hget, hlen]
        · simp [Storage.get, SparseIndex.lookup, hget, getq_set_self v hlen]
  · intro h
    have hlk := has_false_lookup h
    obtain ⟨ad, rm, ix, dn, en⟩ := s
    cases ix with
    | vec sparse =>
        simp only [SparseIndex.lookup] at hlk
        simp [Storage.set, hlk]
    | map m =>
        simp only [SparseIndex.lookup] at hlk
        simp [Storage.set, Option.some.inj hlk]

/-- Witness for C5 at a concrete store holding entity 0. -/
theorem c5_witness :
    ∃ s1, Storage.set (⟨[0], [], .vec [some 0, none], [10], [0]⟩ : Storage Nat) 7 0 =
        some s1 ∧
      s1.index = SparseIndex.vec [some 0, none] ∧ s1.entities = [0] ∧
      s1.added = [0] ∧ s1.removed = [] ∧ s1.get 0 = some (some 7) :=
  (c5_set_semantics (⟨[0], [], .vec [some 0, none], [10], [0]⟩ : Storage Nat) 7 0
    (by decide)).1 (by decide)

/-- C9: the two presence queries agree: under well formedness and within
capacity, has answers some true exactly when get returns a value and
some false exactly when get reports the documented absence. -/
theorem c9_has_get_agree {T : Type} (s : Storage T) (e : Nat)
    (hwf : s.wf = true) (hcap : s.inCap e = true) :
    (s.has e = some true ↔ ∃ v, s.get e = some (some v)) ∧
    (s.has e = some false ↔ s.get e = some none) := by
  have hlk : ∃ o, s.index.lookup e = some o := by
    cases hix : s.index with
    | vec sparse =>
        rw [Storage.inCap, hix] at hcap
        have hcap2 : e < sparse.length := of_decide_eq_true hcap
        simp only [SparseIndex.lookup]
        exact ⟨sparse[e], List.getElem?_eq_getElem hcap2⟩
    | map m =>
        exact ⟨assocGet m e, rfl⟩
  obtain ⟨o, hlk⟩ := hlk
  cases o with
  | some i =>
      have hent := wf_lookup_ents hwf hlk
      have hilt : i < s.dense.length := by
        have h1 := getq_lt hent
        have h2 := wf_len hwf
        omega
      have hdense : s.dense[i]? = some s.dense[i] := List.getElem?_eq_getElem hilt
      constructor
      · constructor
        · intro _
          exact ⟨s.dense[i], by simp [Storage.get, hlk, hdense]⟩
        · intro _
          simp [Storage.has, hlk]
      · constructor
        · intro h
          simp [Storage.has, hlk] at h
        · intro h
          simp [Storage.get, hlk, hdense] at h
  | none =>
      constructor
      · constructor
        · intro h
          simp [Storage.has, hlk] at h
        · rintro ⟨v, hv⟩
          simp [Storage.get, hlk] at hv
      · constructor
        · intro _
          simp [Storage.get, hlk]
        · intro _
          simp [Storage.has, hlk]

/-- Witness for C9 at a concrete hashmap backed store. -/
theorem c9_witness :
    (Storage.has (⟨[4], [], .map [(4, 0)], [11], [4]⟩ : Storage Nat) 4 = some true ↔
      ∃ v, Storage.get (⟨[4], [], .map [(4, 0)], [11], [4]⟩ : Storage Nat) 4 =
        some (some v)) :=
  (c9_has_get_agree (⟨[4], [], .map [(4, 0)], [11], [4]⟩ : Storage Nat) 4
    (by decide) (by decide)).1

theorem assocRemove_insert_fresh {α : Type} {m : List (Nat × α)} {e : Nat} (v : α)
    (h : assocGet m e = none) : assocRemove (assocInsert m e v) e = (some v, m) := by
  induction m with
  | nil => simp [assocInsert, assocRemove]
  | cons p rest ih =>
      obtain ⟨k, w⟩ := p
      rw [assocGet] at h
      by_cases hk : k = e
      · rw [if_pos hk] at h
        exact Option.noConfusion h
      · rw [if_neg hk] at h
        simp [assocInsert, assocRemove, hk, ih h]

/-- C4: in a store where e is absent (and the two dense lists agree in
length), add then remove returns the added value, and an immediately
following second remove returns nothing and changes nothing. -/
theorem c4_add_remove_roundtrip {T : Type} (s : Storage T) (e : Nat) (v : T)
    (hlen : s.dense.length = s.entities.length)
    (habs : s.has e = some false) :
    ∃ s1 s2, s.add_entity v e = some s1 ∧
      s1.remove_entity e = some (some v, s2) ∧
      s2.remove_entity e = some (none, s2) := by
  have hlk := has_false_lookup habs
  obtain ⟨ad, rm, ix, dn, en⟩ := s
  simp only at hlen
  cases ix with
  | vec sparse =>
      simp only [SparseIndex.lookup] at hlk
      have he : e < sparse.length := getq_lt hlk
      refine ⟨⟨ad ++ [e], rm, .vec (sparse.set e (some dn.length)), dn ++ [v], en ++ [e]⟩,
        ⟨ad ++ [e], rm ++ [e], .vec ((sparse.set e (some dn.length)).set e none),
          ((dn ++ [v]).set dn.length v).dropLast,
          ((en ++ [e]).set dn.length e).dropLast⟩, ?_, ?_, ?_⟩
      · simp [Storage.add_entity, hlk]
      · have hs1 : (sparse.set e (some dn.length))[e]? = some (some dn.length) :=
          getq_set_self _ (by simpa using he)
        have hswe : swapRemoveList (en ++ [e]) dn.length =
            some (e, ((en ++ [e]).set dn.length e).dropLast) := by
          simp [swapRemoveList, hlen]
        have hswd : swapRemoveList (dn ++ [v]) dn.length =
            some (v, ((dn ++ [v]).set dn.length v).dropLast) := by
          simp [swapRemoveList]
        simp [Storage.remove_entity, hs1, Storage.removeAt, hswe, hswd]
      · have hs2 : (sparse.set e none)[e]? = some none :=
          getq_set_self _ (by simpa using he)
        simp [Storage.remove_entity, hs2]
  | map m =>
      simp only [SparseIndex.lookup] at hlk
      have hget : assocGet m e = none := Option.some.inj hlk
      have hrm := assocRemove_insert_fresh (m := m) (e := e) dn.length hget
      refine ⟨⟨ad ++ [e], rm, .map (assocInsert m e dn.length), dn ++ [v], en ++ [e]⟩,
        ⟨ad ++ [e], rm ++ [e], .map m,
          ((dn ++ [v]).set dn.length v).dropLast,
          ((en ++ [e]).set dn.length e).dropLast⟩, ?_, ?_, ?_⟩
      · simp [Storage.add_entity, hget]
      · have hswe : swapRemoveList (en ++ [e]) dn.length =
            some (e, ((en ++ [e]).set dn.length e).dropLast) := by
          simp [swapRemoveList, hlen]
        have hswd : swapRemoveList (dn ++ [v]) dn.length =
            some (v, ((dn ++ [v]).set dn.length v).dropLast) := by
          simp [swapRemoveList]
        simp [Storage.remove_entity, hrm, Storage.removeAt, hswe, hswd]
      · simp [Storage.remove_entity, assocRemove_of_get_none hget]

/-- Witness for C4 at a concrete fresh store. -/
theorem c4_witness :
    ∃ s1 s2, Storage.add_entity (Storage.new_sparse 2 : Storage Nat) 42 1 = some s1 ∧
      s1.remove_entity 1 = some (some 42, s2) ∧
      s2.remove_entity 1 = some (none, s2) :=
  c4_add_remove_roundtrip (Storage.new_sparse 2) 1 42 rfl (by decide)

theorem swapRemoveList_length {α : Type} {l : List α} {i : Nat} {x : α} {rest : List α}
    (h : swapRemoveList l i = some (x, rest)) : rest.length = l.length - 1 := by
  rw [swapRemoveList] at h
  cases hg : l[i]? with
  | none => rw [hg] at h; exact Option.noConfusion h
  | some y =>
      cases hl : l.getLast? with
      | none => rw [hg, hl] at h; exact Option.noConfusion h
      | some z =>
          rw [hg, hl] at h
          have h2 := Option.some.inj h
          have h3 := congrArg Prod.snd h2
          simp at h3
          rw [← h3]
          simp

theorem add_entity_len {T : Type} {s s1 : Storage T} {d : T} {e : Nat}
    (hlen : s.dense.length = s.entities.length)
    (h : s.add_entity d e = some s1) :
    s1.dense.length = s1.entities.length := by
  obtain ⟨ad, rm, ix, dn, en⟩ := s
  simp only at hlen
  cases ix with
  | vec sparse =>
      cases hg : sparse[e]? with
      | none => simp [Storage.add_entity, hg] at h
      | some o =>
          cases o with
          | some i => simp [Storage.add_entity, hg] at h
          | none =>
              have hcomp : Storage.add_entity ⟨ad, rm, .vec sparse, dn, en⟩ d e =
                  some ⟨ad ++ [e], rm, .vec (sparse.set e (some dn.length)),
                    dn ++ [d], en ++ [e]⟩ := by
                simp [Storage.add_entity, hg]
              rw [hcomp] at h
              have hs := Option.some.inj h
              subst hs
              simp [hlen]
  | map m =>
      cases hg : assocGet m e with
      | some i => simp [Storage.add_entity, hg] at h
      | none =>
          have hcomp : Storage.add_entity ⟨ad, rm, .map m, dn, en⟩ d e =
              some ⟨ad ++ [e], rm, .map (assocInsert m e dn.length),
                dn ++ [d], en ++ [e]⟩ := by
            simp [Storage.add_entity, hg]
          rw [hcomp] at h
          have hs := Option.some.inj h
          subst hs
          simp [hlen]

theorem removeAt_len {T : Type} {s : Storage T} {e idx : Nat} {o : Option T}
    {s1 : Storage T} (h : Storage.removeAt s e idx = some (o, s1)) :
    s1.dense.length = s.dense.length - 1 ∧
      s1.entities.length = s.entities.length - 1 := by
  rw [Storage.removeAt] at h
  split at h
  next x ents v dens hswe hswd =>
    have hle := swapRemoveList_length hswe
    have hld := swapRemoveList_length hswd
    split at h
    next hidx =>
      have h2 := Option.some.inj h
      have h3 := congrArg Prod.snd h2
      simp only at h3
      rw [← h3]
      exact ⟨hld, hle⟩
    next hidx =>
      split at h
      next hm => exact Option.noConfusion h
      next moved hm =>
        split at h
        next sparse hix =>
          split at h
          next hb =>
            have h2 := Option.some.inj h
            have h3 := congrArg Prod.snd h2
            simp only at h3
            rw [← h3]
            exact ⟨hld, hle⟩
          next hb => exact Option.noConfusion h
        next m hix =>
          have h2 := Option.some.inj h
          have h3 := congrArg Prod.snd h2
          simp only at h3
          rw [← h3]
          exact ⟨hld, hle⟩
  all_goals exact Option.noConfusion h

theorem remove_entity_len {T : Type} {s s1 : Storage T} {o : Option T} {e : Nat}
    (hlen : s.dense.length = s.entities.length)
    (h : s.remove_entity e = some (o, s1)) :
    s1.dense.length = s1.entities.length := by
  obtain ⟨ad, rm, ix, dn, en⟩ := s
  simp only at hlen
  cases ix with
  | vec sparse =>
      cases hg : sparse[e]? with
      | none => simp [Storage.remove_entity, hg] at h
      | some o2 =>
          cases o2 with
          | none =>
              have hcomp : Storage.remove_entity ⟨ad, rm, .vec sparse, dn, en⟩ e =
                  some (none, ⟨ad, rm, .vec sparse, dn, en⟩) := by
                simp [Storage.remove_entity, hg]
              rw [hcomp] at h
              have h2 := Option.some.inj h
              have h3 := congrArg Prod.snd h2
              simp only at h3
              rw [← h3]
              exact hlen
          | some idx =>
              have hcomp : Storage.remove_entity ⟨ad, rm, .vec sparse, dn, en⟩ e =
                  Storage.removeAt ⟨ad, rm, .vec (sparse.set e none), dn, en⟩ e idx := by
                simp [Storage.remove_entity, hg]
              rw [hcomp] at h
              have hr := removeAt_len h
              simp only at hr
              omega
  | map m =>
      cases hg : (assocRemove m e).1 with
      | none =>
          have hcomp : Storage.remove_entity ⟨ad, rm, .map m, dn, en⟩ e =
              some (none, ⟨ad, rm, .map (assocRemove m e).2, dn, en⟩) := by
            simp [Storage.remove_entity, hg]
          rw [hcomp] at h
          have h2 := Option.some.inj h
          have h3 := congrArg Prod.snd h2
          simp only at h3
          rw [← h3]
          exact hlen
      | some idx =>
          have hcomp : Storage.remove_entity ⟨ad, rm, .map m, dn, en⟩ e =
              Storage.removeAt ⟨ad, rm, .map (assocRemove m e).2, dn, en⟩ e idx := by
            simp [Storage.remove_entity, hg]
          rw [hcomp] at h
          have hr := removeAt_len h
          simp only at hr
          omega

theorem set_len {T : Type} {s s1 : Storage T} {d : T} {e : Nat}
    (hlen : s.dense.length = s.entities.length)
    (h : s.set d e = some s1) :
    s1.dense.length = s1.entities.length := by
  obtain ⟨ad, rm, ix, dn, en⟩ := s
  simp only at hlen
  cases ix with
  | vec sparse =>
      cases hg : sparse[e]? with
      | none => simp [Storage.set, hg] at h
      | some o =>
          cases o with
          | none =>
              have hcomp : Storage.set ⟨ad, rm, .vec sparse, dn, en⟩ d e =
                  Storage.add_entity ⟨ad, rm, .vec sparse, dn, en⟩ d e := by
                simp [Storage.set, hg]
              rw [hcomp] at h
              exact add_entity_len hlen h
          | some idx =>
              by_cases hb : idx < dn.length
              · have hcomp : Storage.set ⟨ad, rm, .vec sparse, dn, en⟩ d e =
                    some ⟨ad, rm, .vec sparse, dn.set idx d, en⟩ := by
                  simp [Storage.set, hg, hb]
                rw [hcomp] at h
                have hs := Option.some.inj h
                subst hs
                simp [hlen]
              · have hcomp : Storage.set ⟨ad, rm, .vec sparse, dn, en⟩ d e = none := by
                  simp [Storage.set, hg, hb]
                rw [hcomp] at h
                exact Option.noConfusion h
  | map m =>
      cases hg : assocGet m e with
      | none =>
          have hcomp : Storage.set ⟨ad, rm, .map m, dn, en⟩ d e =
              Storage.add_entity ⟨ad, rm, .map m, dn, en⟩ d e := by
            simp [Storage.set, hg]
          rw [hcomp] at h
          exact add_entity_len hlen h
      | some idx =>
          by_cases hb : idx < dn.length
          · have hcomp : Storage.set ⟨ad, rm, .map m, dn, en⟩ d e =
                some ⟨ad, rm, .map m, dn.set idx d, en⟩ := by
              simp [Storage.set, hg, hb]
            rw [hcomp] at h
            have hs := Option.some.inj h
            subst hs
            simp [hlen]
          · have hcomp : Storage.set ⟨ad, rm, .map m, dn, en⟩ d e = none := by
              simp [Storage.set, hg, hb]
            rw [hcomp] at h
            exact Option.noConfusion h

theorem applyOp_len {T : Type} {s s1 : Storage T} {op : Op T}
    (hlen : s.dense.length = s.entities.length)
    (h : applyOp s op = some s1) :
    s1.dense.length = s1.entities.length := by
  cases op with
  | addE d e => exact add_entity_len hlen h
  | setE d e => exact set_len hlen h
  | removeE e =>
      rw [applyOp] at h
      cases hr : s.remove_entity e with
      | none => rw [hr] at h; exact Option.noConfusion h
      | some p =>
          obtain ⟨o, s2⟩ := p
          rw [hr] at h
          have h2 := Option.some.inj h
          subst h2
          exact remove_entity_len hlen hr

theorem runOps_len {T : Type} {l : List (Op T)} {s s1 : Storage T}
    (hlen : s.dense.length = s.entities.length)
    (h : runOps s l = some s1) :
    s1.dense.length = s1.entities.length := by
  induction l generalizing s with
  | nil =>
      have := Option.some.inj h
      subst this
      exact hlen
  | cons op rest ih =>
      rw [runOps] at h
      cases ha : applyOp s op with
      | none => rw [ha] at h; exact Option.noConfusion h
      | some s2 =>
          rw [ha] at h
          exact ih (applyOp_len hlen ha) h

/-- C3: along any sequence of successful add, set and remove operations,
after each operation (that is, after every successful prefix of the
sequence) the dense list and the entities list have identical length. -/
theorem c3_dense_entities_len {T : Type} (s : Storage T) (ops : List (Op T)) (k : Nat)
    (s1 : Storage T) (hlen : s.dense.length = s.entities.length)
    (hrun : runOps s (ops.take k) = some s1) :
    s1.dense.length = s1.entities.length :=
  runOps_len hlen hrun

/-- Witness for C3 on a concrete operation sequence. -/
theorem c3_witness :
    ∃ s1, runOps (Storage.new_hashmap : Storage Nat)
        ([Op.addE 5 0, Op.addE 6 1, Op.setE 7 0, Op.removeE 0].take 3) = some s1 ∧
      s1.dense.length = s1.entities.length := by
  refine ⟨⟨[0, 1], [], .map [(0, 0), (1, 1)], [7, 6], [0, 1]⟩, by decide, ?_⟩
  exact c3_dense_entities_len Storage.new_hashmap
    [Op.addE 5 0, Op.addE 6 1, Op.setE 7 0, Op.removeE 0] 3 _ rfl (by decide)

/-- C2: removing an entity that sits at a non last dense row moves the
last row into the freed slot and re-points the index entry of the moved
entity, so that get on the moved entity afterwards returns exactly the
value it held before the removal. -/
theorem c2_swap_remove_moves_last {T : Type} (s : Storage T) (e idx m : Nat)
    (hwf : s.wf = true)
    (hlk : s.index.lookup e = some (some idx))
    (hnl : idx + 1 < s.dense.length)
    (hm : s.entities[s.dense.length - 1]? = some m) :
    ∃ v s1, s.remove_entity e = some (some v, s1) ∧
      s.dense[idx]? = some v ∧
      s1.index.lookup m = some (some idx) ∧
      s1.get m = s.get m := by
  have hlen := wf_len hwf
  have hent_e : s.entities[idx]? = some e := wf_lookup_ents hwf hlk
  have hlkm : s.index.lookup m = some (some (s.dense.length - 1)) := wf_ents_lookup hwf hm
  have hidxlt : idx < s.dense.length := by omega
  have hlast_lt : s.dense.length - 1 < s.dense.length := by omega
  obtain ⟨v, hv⟩ : ∃ v, s.dense[idx]? = some v :=
    ⟨_, List.getElem?_eq_getElem hidxlt⟩
  obtain ⟨vL, hvL⟩ : ∃ vL, s.dense[s.dense.length - 1]? = some vL :=
    ⟨_, List.getElem?_eq_getElem hlast_lt⟩
  have hgetLast : s.dense.getLast? = some vL := by
    rw [List.getLast?_eq_getElem?]
    exact hvL
  have hentLast : s.entities.getLast? = some m := by
    rw [List.getLast?_eq_getElem?, ← hlen]
    exact hm
  have hGm : s.get m = some (some vL) := by
    simp [Storage.get, hlkm, hvL]
  obtain ⟨ad, rm, ix, dn, en⟩ := s
  simp only at hlen hlk hlkm hent_e hm hv hvL hgetLast hentLast hGm hnl hidxlt hlast_lt
  cases ix with
  | vec sparse =>
      simp only [SparseIndex.lookup] at hlk hlkm
      have hm_lt : m < sparse.length := getq_lt hlkm
      have hswe : swapRemoveList en idx = some (e, (en.set idx m).dropLast) := by
        simp [swapRemoveList, hent_e, hentLast]
      have hswd : swapRemoveList dn idx = some (v, (dn.set idx vL).dropLast) := by
        simp [swapRemoveList, hv, hgetLast]
      have hif : ¬ (idx = dn.length - 1) := by omega
      have hmoved : ((en.set idx m).dropLast)[idx]? = some m := by
        rw [getq_dropLast]
        · exact getq_set_self m (by omega)
        · simp
          omega
      refine ⟨v, ⟨ad, rm ++ [e], .vec ((sparse.set e none).set m (some idx)),
        (dn.set idx vL).dropLast, (en.set idx m).dropLast⟩, ?_, hv, ?_, ?_⟩
      · have hc1 : Storage.remove_entity ⟨ad, rm, .vec sparse, dn, en⟩ e =
            Storage.removeAt ⟨ad, rm, .vec (sparse.set e none), dn, en⟩ e idx := by
          simp [Storage.remove_entity, hlk]
        rw [hc1]
        simp [Storage.removeAt, hswe, hswd, hif, hmoved, hm_lt]
      · simp only [SparseIndex.lookup]
        exact getq_set_self _ (by simp [hm_lt])
      · rw [hGm]
        have hlk1 : ((sparse.set e none).set m (some idx))[m]? = some (some idx) :=
          getq_set_self _ (by simp [hm_lt])
        have hd1 : ((dn.set idx vL).dropLast)[idx]? = some vL := by
          rw [getq_dropLast]
          · exact getq_set_self vL (by omega)
          · simp
            omega
        simp [Storage.get, SparseIndex.lookup, hlk1, hd1]
  | map am =>
      simp only [SparseIndex.lookup] at hlk hlkm
      have hga : assocGet am e = some idx := Option.some.inj hlk
      have hr1 : (assocRemove am e).1 = some idx := by
        rw [assocRemove_fst]
        exact hga
      have hswe : swapRemoveList en idx = some (e, (en.set idx m).dropLast) := by
        simp [swapRemoveList, hent_e, hentLast]
      have hswd : swapRemoveList dn idx = some (v, (dn.set idx vL).dropLast) := by
        simp [swapRemoveList, hv, hgetLast]
      have hif : ¬ (idx = dn.length - 1) := by omega
      have hmoved : ((en.set idx m).dropLast)[idx]? = some m := by
        rw [getq_dropLast]
        · exact getq_set_self m (by omega)
        · simp
          omega
      refine ⟨v, ⟨ad, rm ++ [e], .map (assocInsert (assocRemove am e).2 m idx),
        (dn.set idx vL).dropLast, (en.set idx m).dropLast⟩, ?_, hv, ?_, ?_⟩
      · have hc1 : Storage.remove_entity ⟨ad, rm, .map am, dn, en⟩ e =
            Storage.removeAt ⟨ad, rm, .map (assocRemove am e).2, dn, en⟩ e idx := by
          simp [Storage.remove_entity, hr1]
        rw [hc1]
        simp [Storage.removeAt, hswe, hswd, hif, hmoved]
      · simp only [SparseIndex.lookup]
        rw [assocGet_insert_self]
      · rw [hGm]
        have hd1 : ((dn.set idx vL).dropLast)[idx]? = some vL := by
          rw [getq_dropLast]
          · exact getq_set_self vL (by omega)
          · simp
            omega
        simp [Storage.get, SparseIndex.lookup, assocGet_insert_self, hd1]

/-- Witness for C2 on a concrete three row store, removing the first row. -/
theorem c2_witness :
    ∃ v s1, Storage.remove_entity
        (⟨[0, 1, 2], [], .vec [some 0, some 1, some 2], [10, 20, 30], [0, 1, 2]⟩ :
          Storage Nat) 0 = some (some v, s1) ∧
      ([10, 20, 30] : List Nat)[0]? = some v ∧
      s1.index.lookup 2 = some (some 0) ∧
      s1.get 2 = Storage.get
        (⟨[0, 1, 2], [], .vec [some 0, some 1, some 2], [10, 20, 30], [0, 1, 2]⟩ :
          Storage Nat) 2 :=
  c2_swap_remove_moves_last
    (⟨[0, 1, 2], [], .vec [some 0, some 1, some 2], [10, 20, 30], [0, 1, 2]⟩ : Storage Nat)
    0 0 2 (by decide) (by decide) (by decide) (by decide)

/-- C7: despawn panics (none) when the entity is not live; on success the
entity leaves the live set, joins the dead set, and no tag set of the tag
index still contains it. -/
theorem c7_despawn_cleans_tags (w : World) (e : Nat) :
    (e ∉ w.entities → w.despawn e = none) ∧
    (∀ w1, w.despawn e = some w1 →
      e ∉ w1.entities ∧ e ∈ w1.dead_entities ∧ ∀ p ∈ w1.tags, e ∉ p.2) := by
  constructor
  · intro h
    simp [World.despawn, h]
  · intro w1 h
    rw [World.despawn] at h
    by_cases he : e ∈ w.entities
    · rw [if_pos he] at h
      have hw := Option.some.inj h
      subst hw
      refine ⟨?_, ?_, ?_⟩
      · simp
      · by_cases hd : e ∈ w.dead_entities
        · simp [insertSet, hd]
        · simp [insertSet, hd]
      · intro p hp
        simp only [remove_all_tags, List.mem_map] at hp
        obtain ⟨q, hq, heq⟩ := hp
        rw [← heq]
        simp
    · rw [if_neg he] at h
      exact Option.noConfusion h

/-- Witness for C7: despawning in a fresh world panics. -/
theorem c7_witness : World.despawn (World.new 3) 0 = none :=
  (c7_despawn_cleans_tags (World.new 3) 0).1 (by decide)

/-- C8: from a fresh world, spawn A, spawn B, despawn A, spawn C: the new
entity C reuses the id of A and differs from B. -/
theorem c8_entity_id_reuse :
    ∃ w3, (World.new 5).spawn.2.spawn.2.despawn (World.new 5).spawn.1 = some w3 ∧
      w3.spawn.1 = (World.new 5).spawn.1 ∧
      w3.spawn.1 ≠ (World.new 5).spawn.2.spawn.1 :=
  ⟨⟨[], [], [1], [0], 2, 5⟩, by decide, by decide, by decide⟩

theorem downcastSparse_eq_some {b : BoxedStore} {st : Storage Nat}
    (h : World.downcastSparse b = some st) : b = ⟨Backend.sparse, st⟩ := by
  obtain ⟨bk, s0⟩ := b
  cases bk with
  | sparse =>
      rw [World.downcastSparse] at h
      have := Option.some.inj h
      simp only at this
      rw [this]
  | hashmap => exact Option.noConfusion h

theorem sequenceOpt_map_some {α β : Type} (f : β → Option α) (l : List β)
    (h : ∀ k ∈ l, (f k).isSome = true) :
    ∃ r, World.sequenceOpt (l.map f) = some r ∧
      List.Forall₂ (fun k st => f k = some st) l r := by
  induction l with
  | nil => exact ⟨[], rfl, List.Forall₂.nil⟩
  | cons k rest ih =>
      have hk := h k (by simp)
      obtain ⟨st, hst⟩ := Option.isSome_iff_exists.mp hk
      obtain ⟨r, hr, hall⟩ := ih (fun x hx => h x (by simp [hx]))
      refine ⟨st :: r, ?_, List.Forall₂.cons hst hall⟩
      simp [World.sequenceOpt, hst, hr]

theorem sequenceOpt_map_none {α β : Type} (f : β → Option α) (l : List β) {k : β}
    (hk : k ∈ l) (hnone : f k = none) :
    World.sequenceOpt (l.map f) = none := by
  induction l with
  | nil => cases hk
  | cons k1 rest ih =>
      rcases List.mem_cons.mp hk with h1 | h1
      · subst h1
        simp [World.sequenceOpt, hnone]
      · cases hf : f k1 with
        | none => simp [World.sequenceOpt, hf]
        | some x => simp [World.sequenceOpt, hf, ih h1]

theorem sequenceOpt_length {α : Type} {l : List (Option α)} {r : List α}
    (h : World.sequenceOpt l = some r) : r.length = l.length := by
  induction l generalizing r with
  | nil =>
      have := Option.some.inj h
      rw [← this]
      rfl
  | cons o rest ih =>
      cases o with
      | none => exact Option.noConfusion h
      | some x =>
          rw [World.sequenceOpt] at h
          cases hs : World.sequenceOpt rest with
          | none => rw [hs] at h; exact Option.noConfusion h
          | some r2 =>
              rw [hs] at h
              have h2 := Option.some.inj (by simpa using h)
              rw [← h2]
              simp [ih hs]

/-- C1 amended: the multi store mutable fetch with 2 to 6 pairwise
distinct type keys, each registered with the SPARSE backend, returns all
k stores (pointwise the registered ones); when any requested key is
unregistered it returns the overall none; and a some result always holds
exactly one store per requested key, never an incomplete tuple. -/
theorem c1_fetch_mut_sparse (w : World) (keys : List Nat)
    (h2 : 2 ≤ keys.length) (h6 : keys.length ≤ 6) (hnd : keys.Nodup) :
    ((∀ k ∈ keys, ∃ st, assocGet w.map k = some ⟨Backend.sparse, st⟩) →
       ∃ stores, w.fetch_mut keys = some stores ∧
         List.Forall₂ (fun k st => assocGet w.map k = some ⟨Backend.sparse, st⟩)
           keys stores) ∧
    ((∃ k ∈ keys, assocGet w.map k = none) → w.fetch_mut keys = none) ∧
    (∀ stores, w.fetch_mut keys = some stores → stores.length = keys.length) := by
  have hfe : w.fetch_mut keys =
      World.sequenceOpt (keys.map (fun k => (assocGet w.map k).bind World.downcastSparse)) := by
    rw [World.fetch_mut, World.get_k_mut, World.get_disjoint_mut, if_pos hnd]
    simp [List.map_map, Function.comp_def]
  refine ⟨?_, ?_, ?_⟩
  · intro hall
    have hsome : ∀ k ∈ keys, ((assocGet w.map k).bind World.downcastSparse).isSome = true := by
      intro k hk
      obtain ⟨st, hst⟩ := hall k hk
      rw [hst]
      rfl
    obtain ⟨r, hr, hrall⟩ := sequenceOpt_map_some
        (fun k => (assocGet w.map k).bind World.downcastSparse) keys hsome
    refine ⟨r, by rw [hfe]; exact hr, ?_⟩
    refine hrall.imp ?_
    intro k st hk
    obtain ⟨b, hb, hcast⟩ := Option.bind_eq_some.mp hk
    rw [hb, downcastSparse_eq_some hcast]
  · rintro ⟨k, hk, hnone⟩
    rw [hfe]
    exact sequenceOpt_map_none _ keys hk (by rw [hnone]; rfl)
  · intro stores hst
    rw [hfe] at hst
    have := sequenceOpt_length hst
    simpa using this

/-- Witness for the amended C1 at a concrete world with two sparse
registered keys. -/
theorem c1_witness :
    ∃ stores,
      World.fetch_mut ((((World.new 4).add 0).2).add 1).2 [0, 1] = some stores ∧
      List.Forall₂
        (fun k st => assocGet ((((World.new 4).add 0).2).add 1).2.map k =
          some ⟨Backend.sparse, st⟩) [0, 1] stores := by
  refine (c1_fetch_mut_sparse ((((World.new 4).add 0).2).add 1).2 [0, 1]
    (by decide) (by decide) (by decide)).1 ?_
  intro k hk
  rcases List.mem_cons.mp hk with rfl | hk1
  · exact ⟨Storage.new_sparse 4, by decide⟩
  · rcases List.mem_cons.mp hk1 with rfl | hk2
    · exact ⟨Storage.new_sparse 4, by decide⟩
    · cases hk2

/-- Counterexample to C1 as stated: in a world where type key 0 is
registered with the hashmap backend and type key 1 with the sparse
backend, both requested keys are registered and pairwise distinct, yet
the multi store mutable fetch returns none, because the per slot downcast
of the macro generated get_two_mut only accepts the sparse backed store
type. -/
theorem c1_counterexample :
    (assocGet (((World.add_with_storage (World.new 4) 0 Backend.hashmap).2).add_with_storage
        1 Backend.sparse).2.map 0).isSome = true ∧
    (assocGet (((World.add_with_storage (World.new 4) 0 Backend.hashmap).2).add_with_storage
        1 Backend.sparse).2.map 1).isSome = true ∧
    ([0, 1] : List Nat).Nodup ∧
    World.fetch_mut (((World.add_with_storage (World.new 4) 0 Backend.hashmap).2).add_with_storage
        1 Backend.sparse).2 [0, 1] = none := by
  refine ⟨by decide, by decide, by decide, by decide⟩

end SparseEcs
